import Mathlib

/-!
Shallow embedding of `scripts/AudioCLIP/frames.py` (patch-based spatial
similarity scoring) and proofs about it.  Real-valued tensor arithmetic is
modelled over a linear ordered field (instantiated at `ℚ` for concrete
evaluation and available at `ℝ`); tensors are lists; the stream of outcomes
of `np.random.randint` is made explicit; code that can raise returns
`Option`.
-/

namespace AudioCLIP

variable {α : Type*} [LinearOrderedField α]

/-- Dot product of two vectors (`u @ v.T` for matching dimensions). -/
def dot (u v : List α) : α := (List.zipWith (· * ·) u v).sum

/-- Model of `torch.mean` of a vector: sum divided by length. -/
def mean (l : List α) : α := l.sum / l.length

/-- The constant `SCALE_AUDIO_IMAGE = 68.1320` (frames.py line 17). -/
def SCALE_AUDIO_IMAGE : α := 68132 / 1000

/-- The constant `SCALE_IMAGE_TEXT = 81.9903` (frames.py line 18). -/
def SCALE_IMAGE_TEXT : α := 819903 / 10000

/-- Model of `torch.quantile(l, 0.7)`: linear interpolation between the two order
statistics bracketing position `0.7 * (n - 1)` of the ascending sort.  The
integer and fractional parts of `0.7 * (n - 1) = 7 * (n - 1) / 10` are
computed in `ℕ`. -/
def quantile07 (l : List α) : α :=
  let s := l.insertionSort (· ≤ ·)
  let pos7 : ℕ := 7 * (l.length - 1)
  let lo := pos7 / 10
  let frac : α := ((pos7 % 10 : ℕ) : α) / 10
  s.getD lo 0 + frac * (s.getD (lo + 1) 0 - s.getD lo 0)

/-- One round of the `while True` rejection loop of `negative_sample`
(frames.py lines 261-270): draw indices from the random stream until one
hits a row of `embedding` whose similarity to `source` is strictly below
`threshold`; reject (`continue`) when `negative @ source.T >= threshold`.
`np.random.randint(embedding.shape[0])` always yields an in-range index, so
the `none` case of the row lookup cannot arise on real draws; it is treated
as one more rejected draw.  Returns the accepted row and the unconsumed rest
of the stream, or `none` when the finite stream is exhausted (the Python
loop would still be running). -/
def drawNegative (source : List α) (embedding : List (List α)) (threshold : α) :
    List ℕ → Option (List α × List ℕ)
  | [] => none
  | idx :: rest =>
    match embedding[idx]? with
    | none => drawNegative source embedding threshold rest
    | some row =>
      if threshold ≤ dot row source then drawNegative source embedding threshold rest
      else some (row, rest)

/-- Model of `negative_sample` (frames.py lines 248-271) with the outcomes of
`np.random.randint` made explicit as a finite stream of indices: collect
`k` rows whose similarity to `source` is strictly below `threshold`;
`none` when the stream runs out first. -/
def negative_sample (source : List α) (embedding : List (List α)) (k : ℕ)
    (threshold : α) (stream : List ℕ) : Option (List (List α)) :=
  match k with
  | 0 => some []
  | k + 1 =>
    match drawNegative source embedding threshold stream with
    | none => none
    | some (row, rest) =>
      match negative_sample source embedding k threshold rest with
      | none => none
      | some negs => some (row :: negs)

/-- The unscaled similarities `embedding @ source_feature.T`
(frames.py line 306), one value per patch. -/
def unscaledSimilarity (embedding : List (List α)) (source : List α) : List α :=
  embedding.map fun row => dot row source

/-- The rejection threshold used by `process_frames` (frames.py line 321):
the 0.7-quantile of the frame's unscaled similarity values. -/
def frameThreshold (embedding : List (List α)) (source : List α) : α :=
  quantile07 (unscaledSimilarity embedding source)

/-- Whether a draw of index `idx` is accepted by the rejection loop of
`negative_sample`: it hits a row whose similarity to `source` is strictly
below `threshold`. -/
def acceptsIdx (source : List α) (embedding : List (List α)) (threshold : α)
    (idx : ℕ) : Bool :=
  match embedding[idx]? with
  | none => false
  | some row => decide (dot row source < threshold)

/-- The per-patch scores computed by `process_frames` (frames.py lines
305-331) for one frame, up to but not including the `MAP` transform:
the scaled source similarity (averaged with the mean scaled supervision
similarity when a supervision feature is present) minus `lambda_` times
the negative-sampling penalty of lines 327-331.  The random draws of
`negative_sample` (called with `k = 40` and the 0.7-quantile threshold,
lines 321-324) are an explicit stream. -/
def processFrameScores (embedding : List (List α)) (source : List α)
    (supervision : Option (List (List α))) (lambda_ : α) (stream : List ℕ) :
    Option (List α) :=
  let unscaled := unscaledSimilarity embedding source
  let similarity := unscaled.map fun s => SCALE_AUDIO_IMAGE * s
  let similarity :=
    match supervision with
    | none => similarity
    | some sup =>
      List.zipWith
        (fun s row => (s + mean (sup.map fun t => SCALE_IMAGE_TEXT * dot row t)) / 2)
        similarity embedding
  let threshold := quantile07 unscaled
  match negative_sample source embedding 40 threshold stream with
  | none => none
  | some negatives =>
    let penalty := embedding.map fun row =>
      SCALE_AUDIO_IMAGE * mean (negatives.map fun n => dot row n)
    some (List.zipWith (fun s p => s - lambda_ * p) similarity penalty)

/-! Images and `extract_patches_rect`. -/

/-- A single-channel abstraction of a PIL image: a width, a height and a
pixel map.  Pixel values are naturals; only their identity matters here. -/
structure Img where
  width : ℕ
  height : ℕ
  pix : ℕ → ℕ → ℕ

/-- Pixel lookup with PIL's out-of-canvas convention (fill value 0). -/
def Img.getPix (im : Img) (x y : ℤ) : ℕ :=
  if 0 ≤ x ∧ x < im.width ∧ 0 ≤ y ∧ y < im.height then im.pix x.toNat y.toNat else 0

/-- Model of `ImageOps.expand(image, (left, top, right, bottom))` (frames.py lines
49-57): grow the canvas, offsetting the original by `(left, top)` and
filling the border with 0. -/
def expandImg (im : Img) (left top right bottom : ℕ) : Img where
  width := im.width + left + right
  height := im.height + top + bottom
  pix := fun x y => im.getPix ((x : ℤ) - left) ((y : ℤ) - top)

/-- Model of `image.crop((x, y, x + s, y + s))` (frames.py line 66): an `s × s`
window whose pixel `(a, b)` reads the source at `(x + a, y + b)`
(0 outside the canvas). -/
def cropI (im : Img) (x y : ℤ) (s : ℕ) : Img where
  width := s
  height := s
  pix := fun a b => im.getPix (x + a) (y + b)

/-- Number of elements of Python's `range(0, stop, step)` for `step ≠ 0`. -/
def pythonRangeLen (stop step : ℤ) : ℕ :=
  if 0 < step then (if stop ≤ 0 then 0 else (stop - 1).toNat / step.toNat + 1)
  else (if 0 ≤ stop then 0 else (-stop - 1).toNat / (-step).toNat + 1)

/-- Python's `range(0, stop, step)`; `none` models the `ValueError` raised
when `step = 0`. -/
def pythonRange (stop step : ℤ) : Option (List ℤ) :=
  if step = 0 then none
  else some ((List.range (pythonRangeLen stop step)).map fun i => Int.ofNat i * step)

/-- Model of `extract_patches_rect` (frames.py lines 43-71).  `none` models every way
the Python function raises: `ZeroDivisionError` when `patch_size = 0`
(`width % patch_size`, line 47) or when `patches_per_row - 1` or
`patches_per_column - 1` is zero (lines 60-61); `ValueError` when a `range`
receives step 0 (the inner range only when the outer loop runs, lines
63-64); and the `RuntimeError` of `torch.stack([])` when the loops append
no patch (line 70).  Strides use Python's floor division (`Int.fdiv`),
which for `patches_per_row = 0` divides by `-1`.  `ToTensor()` only rescales
pixel values, so patches are modelled as the cropped images themselves. -/
def extract_patches_rect (image : Img) (patch_size ppr ppc : ℕ) :
    Option (List Img × ℤ × ℤ × ℕ × ℕ) :=
  if patch_size = 0 then none else
  let padding_x := (patch_size - image.width % patch_size) % patch_size
  let padding_y := (patch_size - image.height % patch_size) % patch_size
  let padded := expandImg image (padding_x / 2) (padding_y / 2)
      (padding_x - padding_x / 2) (padding_y - padding_y / 2)
  let pw := padded.width
  let ph := padded.height
  if ppr = 1 ∨ ppc = 1 then none else
  let sx := Int.fdiv ((pw : ℤ) - patch_size) ((ppr : ℤ) - 1)
  let sy := Int.fdiv ((ph : ℤ) - patch_size) ((ppc : ℤ) - 1)
  match pythonRange ((ph : ℤ) - patch_size + 1) sy with
  | none => none
  | some ys =>
    match ys with
    | [] => none
    | _ :: _ =>
      match pythonRange ((pw : ℤ) - patch_size + 1) sx with
      | none => none
      | some xs =>
        let patches := ys.flatMap fun y => xs.map fun x => cropI padded x y patch_size
        if patches.isEmpty then none
        else some (patches, sx, sy, pw, ph)

/-! The embedding pipeline.  `torch.linalg.norm` needs square roots, so this
part is `ℝ`-valued. -/

/-- L2 norm of a vector (`torch.linalg.norm(v, dim=-1)`). -/
noncomputable def l2norm (v : List ℝ) : ℝ := Real.sqrt ((v.map fun x => x ^ 2).sum)

/-- Row normalization `image_features / torch.linalg.norm(image_features,
dim=-1, keepdim=True)` (frames.py lines 141-143, and identically lines
234-236 of `save_frame_embeddings`). -/
noncomputable def normalizeVec (v : List ℝ) : List ℝ := v.map fun x => x / l2norm v

/-- All feature rows normalized (frames.py lines 141-143 / 234-236). -/
noncomputable def normalizeRows (rows : List (List ℝ)) : List (List ℝ) :=
  rows.map normalizeVec

/-- Split a list into consecutive chunks of `n` elements (the batches
`all_patches[i : i + 8]` of frames.py lines 135-136). -/
def chunksOf {γ : Type*} (n : ℕ) : List γ → List (List γ)
  | [] => []
  | x :: xs =>
    if n = 0 then [x :: xs]
    else (x :: xs).take n :: chunksOf n ((x :: xs).drop n)
termination_by l => l.length
decreasing_by simp [List.length_drop]; omega

/-- The feature-extraction stage of `get_frame_embeddings` (frames.py lines
132-143): apply the image transforms to every patch, run the model over
batches of 8, concatenate (`torch.cat`), and normalize each row.
`modelBatch` is the model applied to one batch (`model(image=batch)`
followed by the projection `[0][0][1]` of line 138); `transform` is
`image_transforms`. -/
noncomputable def embedPatches (modelBatch : List Img → List (List ℝ))
    (transform : Img → Img) (patches : List Img) : List (List ℝ) :=
  normalizeRows (((chunksOf 8 (patches.map transform)).map modelBatch).flatten)

/-- Model of `get_frame_embeddings` (frames.py lines 96-148) after frame decoding:
extract patches with `patches_per_row = width // downscale` and
`patches_per_column = height // downscale` (lines 124-129), embed them, and
return the features together with the grid dimensions
`new_w = (padded_w - patch_size) // stride_x + 1` and
`new_h = (padded_h - patch_size) // stride_y + 1` of lines 145-146. -/
noncomputable def get_frame_embeddings (modelBatch : List Img → List (List ℝ))
    (transform : Img → Img) (image : Img) (patch_size downscale : ℕ) :
    Option (List (List ℝ) × ℤ × ℤ) :=
  match extract_patches_rect image patch_size
      (image.width / downscale) (image.height / downscale) with
  | none => none
  | some (patches, sx, sy, pw, ph) =>
    some (embedPatches modelBatch transform patches,
      ((pw : ℤ) - patch_size).fdiv sx + 1, ((ph : ℤ) - patch_size).fdiv sy + 1)

/-- Sample standard deviation `similarity.std()` (frames.py line 28):
`torch` applies Bessel's correction (divide by `N - 1`). -/
noncomputable def listStd (l : List ℝ) : ℝ :=
  Real.sqrt ((l.map fun x => (x - mean l) ^ 2).sum / ((l.length : ℝ) - 1))

/-- Model of `torch.topk(l, k).values.min()` (frames.py line 29): the `k`-th largest
element, read off at position `n - k` of the ascending sort. -/
noncomputable def topkMin (l : List ℝ) (k : ℕ) : ℝ :=
  (l.insertionSort (· ≤ ·)).getD (l.length - k) 0

/-- Model of `MAP` (frames.py lines 20-30) on the single similarity column
`similarity[:, 0]`: entrywise `100 / (1 + exp(-(x - top25) / (std / 12)))`,
where `top25` is the smallest of the top `int(len * 0.05)` values and `std`
the sample standard deviation of the whole tensor. -/
noncomputable def MAP (l : List ℝ) : List ℝ :=
  let std := listStd l
  let top25 := topkMin l (l.length * 5 / 100)
  l.map fun x => 100 / (1 + Real.exp (-(x - top25) / (std / 12)))

/-- A concrete 129 × 129 test image (the pipeline passes
`patches_per_row = patches_per_column = 129 // 32 = 4`). -/
def imgW : Img := ⟨129, 129, fun _ _ => 0⟩

/-- Termination of the rejection-sampling loops of `negative_sample` on an
infinite stream of `np.random.randint` outcomes, as the claim quantifies it:
some finite prefix of the outcome stream already yields the `k` negatives. -/
def negSampleTerminates (source : List α) (embedding : List (List α)) (k : ℕ)
    (threshold : α) (stream : ℕ → ℕ) : Prop :=
  ∃ n, (negative_sample source embedding k threshold ((List.range n).map stream)).isSome

/-- A default image for indexed access. -/
def blankImg : Img := ⟨0, 0, fun _ _ => 0⟩

def imgA : Img := ⟨1, 1, fun _ _ => 0⟩

def imgB : Img := ⟨2, 2, fun _ _ => 0⟩

def imgC : Img := ⟨3, 3, fun _ _ => 0⟩

def fW : Img → List ℝ := fun im => [(im.width : ℝ)]

def mbW : List Img → List (List ℝ) := fun b => b.map fW

def lC3 : List ℝ := 0 :: 1 :: List.replicate 18 1

/-! Derived views of `extract_patches_rect`, used to state and prove facts
about it. -/

/-- The padded dimension produced by frames.py lines 47-48:
`d + (patch_size - d % patch_size) % patch_size`. -/
def paddedDim (d ps : ℕ) : ℕ := d + (ps - d % ps) % ps

/-- The padded image built in frames.py lines 49-57. -/
def paddedOf (image : Img) (ps : ℕ) : Img :=
  expandImg image
    ((ps - image.width % ps) % ps / 2) ((ps - image.height % ps) % ps / 2)
    ((ps - image.width % ps) % ps - (ps - image.width % ps) % ps / 2)
    ((ps - image.height % ps) % ps - (ps - image.height % ps) % ps / 2)

/-- The element list of a Python `range(0, stop, step)` for `step ≠ 0`. -/
def pyList (stop step : ℤ) : List ℤ :=
  (List.range (pythonRangeLen stop step)).map fun i => Int.ofNat i * step

lemma paddedOf_def (image : Img) (ps : ℕ) :
    paddedOf image ps =
      expandImg image
        ((ps - image.width % ps) % ps / 2) ((ps - image.height % ps) % ps / 2)
        ((ps - image.width % ps) % ps - (ps - image.width % ps) % ps / 2)
        ((ps - image.height % ps) % ps - (ps - image.height % ps) % ps / 2) := rfl

lemma expandImg_width (im : Img) (l t r b : ℕ) :
    (expandImg im l t r b).width = im.width + l + r := rfl

lemma expandImg_height (im : Img) (l t r b : ℕ) :
    (expandImg im l t r b).height = im.height + t + b := rfl

lemma paddedOf_width (image : Img) (ps : ℕ) :
    (paddedOf image ps).width = paddedDim image.width ps := by
  simp [paddedOf, paddedDim, expandImg_width]
  omega

lemma paddedOf_height (image : Img) (ps : ℕ) :
    (paddedOf image ps).height = paddedDim image.height ps := by
  simp [paddedOf, paddedDim, expandImg_height]
  omega

lemma paddedDim_dvd (d ps : ℕ) (hps : 1 ≤ ps) : ps ∣ paddedDim d ps := by
  rcases Nat.eq_zero_or_pos (d % ps) with h | h
  · have h2 : (ps - d % ps) % ps = 0 := by
      rw [h, Nat.sub_zero, Nat.mod_self]
    rw [paddedDim, h2, Nat.add_zero]
    exact Nat.dvd_of_mod_eq_zero h
  · have h1 : d % ps < ps := Nat.mod_lt _ (by omega)
    have h2 : (ps - d % ps) % ps = ps - d % ps := Nat.mod_eq_of_lt (by omega)
    have h3 : ps * (d / ps) + d % ps = d := Nat.div_add_mod d ps
    refine ⟨d / ps + 1, ?_⟩
    rw [paddedDim, h2, Nat.mul_add, Nat.mul_one]
    omega

lemma paddedDim_ge_self (d ps : ℕ) : d ≤ paddedDim d ps := Nat.le_add_right _ _

lemma paddedDim_lt (d ps : ℕ) (hps : 1 ≤ ps) : paddedDim d ps < d + ps := by
  have : (ps - d % ps) % ps < ps := Nat.mod_lt _ (by omega)
  rw [paddedDim]; omega

lemma le_paddedDim (d ps : ℕ) (hd : 1 ≤ d) (hps : 1 ≤ ps) : ps ≤ paddedDim d ps :=
  Nat.le_of_dvd (by have := paddedDim_ge_self d ps; omega) (paddedDim_dvd d ps hps)

lemma pythonRange_eq (stop step : ℤ) (h : step ≠ 0) :
    pythonRange stop step = some (pyList stop step) := by
  simp [pythonRange, pyList, h]

lemma pythonRange_some_inv {stop step : ℤ} {l : List ℤ}
    (h : pythonRange stop step = some l) : step ≠ 0 ∧ l = pyList stop step := by
  by_cases hs : step = 0
  · simp [pythonRange, hs] at h
  · rw [pythonRange_eq stop step hs] at h
    exact ⟨hs, (Option.some.injEq _ _ ▸ h.symm :)⟩

lemma pyList_length (stop step : ℤ) :
    (pyList stop step).length = pythonRangeLen stop step := by
  rw [pyList, List.length_map, List.length_range]

lemma pythonRangeLen_of_pos {stop step : ℤ} (hstep : 0 < step) (hstop : 0 < stop) :
    pythonRangeLen stop step = (stop - 1).toNat / step.toNat + 1 := by
  rw [pythonRangeLen, if_pos hstep, if_neg (by omega)]

lemma pythonRangeLen_zero_of_neg {stop step : ℤ} (hstep : step < 0) (hstop : 0 ≤ stop) :
    pythonRangeLen stop step = 0 := by
  rw [pythonRangeLen, if_neg (by omega), if_pos hstop]

lemma pyList_nil_of_neg {stop step : ℤ} (hstep : step < 0) (hstop : 0 ≤ stop) :
    pyList stop step = [] := by
  have := pythonRangeLen_zero_of_neg hstep hstop
  rw [pyList, this]
  simp

lemma pyList_ne_nil_of_pos {stop step : ℤ} (hstep : 0 < step) (hstop : 0 < stop) :
    pyList stop step ≠ [] := by
  intro hnil
  have h2 := pyList_length stop step
  rw [hnil, pythonRangeLen_of_pos hstep hstop] at h2
  exact Nat.succ_ne_zero _ h2.symm

lemma mem_pyList_of_pos {stop step z : ℤ} (hstep : 0 < step) (hstop : 0 < stop)
    (hz : z ∈ pyList stop step) : 0 ≤ z ∧ z ≤ stop - 1 := by
  rw [pyList] at hz
  obtain ⟨i, hi, rfl⟩ := List.mem_map.mp hz
  rw [List.mem_range, pythonRangeLen_of_pos hstep hstop] at hi
  rw [Int.ofNat_eq_natCast]
  have hstep' : 0 < step.toNat := by omega
  have hi2 : i ≤ (stop - 1).toNat / step.toNat := by omega
  have hi3 : i * step.toNat ≤ (stop - 1).toNat :=
    (Nat.le_div_iff_mul_le hstep').mp hi2
  constructor
  · positivity
  · have hcast : ((i * step.toNat : ℕ) : ℤ) ≤ ((stop - 1).toNat : ℤ) := by
      exact_mod_cast hi3
    rw [Int.toNat_of_nonneg (by omega)] at hcast
    push_cast at hcast
    rw [Int.toNat_of_nonneg (by omega)] at hcast
    exact hcast

/-- Everything that success of `extract_patches_rect` implies, for images
with positive dimensions. -/
lemma extract_facts {image : Img} {ps ppr ppc : ℕ} {patches : List Img}
    {sx sy : ℤ} {pw ph : ℕ} (hw : 1 ≤ image.width) (hh : 1 ≤ image.height)
    (h : extract_patches_rect image ps ppr ppc = some (patches, sx, sy, pw, ph)) :
    1 ≤ ps ∧ 2 ≤ ppr ∧ 2 ≤ ppc ∧
    pw = paddedDim image.width ps ∧ ph = paddedDim image.height ps ∧
    ps ≤ pw ∧ ps ≤ ph ∧
    sx = ((pw : ℤ) - ps) / ((ppr : ℤ) - 1) ∧
    sy = ((ph : ℤ) - ps) / ((ppc : ℤ) - 1) ∧
    1 ≤ sx ∧ 1 ≤ sy ∧
    patches = (pyList ((ph : ℤ) - ps + 1) sy).flatMap fun y =>
      (pyList ((pw : ℤ) - ps + 1) sx).map fun x => cropI (paddedOf image ps) x y ps := by
  simp only [extract_patches_rect, ← paddedOf_def, paddedOf_width, paddedOf_height] at h
  split at h
  · exact absurd h (by simp)
  split at h
  · exact absurd h (by simp)
  split at h
  · exact absurd h (by simp)
  split at h
  · exact absurd h (by simp)
  split at h
  · exact absurd h (by simp)
  split at h
  · exact absurd h (by simp)
  rename_i hps0 hpc1 optY ysv yhd ytl heqY optX xsv heqX hnemp
  rw [Option.some.injEq, Prod.mk.injEq, Prod.mk.injEq, Prod.mk.injEq, Prod.mk.injEq] at h
  obtain ⟨hpatches, hsx, hsy, hpw, hph⟩ := h
  subst hpw hph hsx hsy hpatches
  have hps1 : 1 ≤ ps := by omega
  have hpprne : ppr ≠ 1 := fun hc => hpc1 (Or.inl hc)
  have hppcne : ppc ≠ 1 := fun hc => hpc1 (Or.inr hc)
  have hPWge : ps ≤ paddedDim image.width ps := le_paddedDim _ _ hw hps1
  have hPHge : ps ≤ paddedDim image.height ps := le_paddedDim _ _ hh hps1
  obtain ⟨hsyne, hysE⟩ := pythonRange_some_inv heqY
  obtain ⟨hsxne, hxsE⟩ := pythonRange_some_inv heqX
  have hsypos : 0 < ((paddedDim image.height ps : ℤ) - ps).fdiv ((ppc : ℤ) - 1) := by
    rcases lt_trichotomy (((paddedDim image.height ps : ℤ) - ps).fdiv ((ppc : ℤ) - 1)) 0
      with hneg | hz | hpos
    · exfalso
      have hnil : pyList ((paddedDim image.height ps : ℤ) - ps + 1)
          (((paddedDim image.height ps : ℤ) - ps).fdiv ((ppc : ℤ) - 1)) = [] :=
        pyList_nil_of_neg hneg (by omega)
      rw [← hysE] at hnil
      exact List.cons_ne_nil _ _ hnil
    · exact absurd hz hsyne
    · exact hpos
  have hxs_ne_nil : xsv ≠ [] := by
    intro hxsnil
    apply hnemp
    rw [hxsnil]
    simp
  have hsxpos : 0 < ((paddedDim image.width ps : ℤ) - ps).fdiv ((ppr : ℤ) - 1) := by
    rcases lt_trichotomy (((paddedDim image.width ps : ℤ) - ps).fdiv ((ppr : ℤ) - 1)) 0
      with hneg | hz | hpos
    · exfalso
      have hnil : pyList ((paddedDim image.width ps : ℤ) - ps + 1)
          (((paddedDim image.width ps : ℤ) - ps).fdiv ((ppr : ℤ) - 1)) = [] :=
        pyList_nil_of_neg hneg (by omega)
      rw [← hxsE] at hnil
      exact hxs_ne_nil hnil
    · exact absurd hz hsxne
    · exact hpos
  have hppc2 : 2 ≤ ppc := by
    rcases Nat.lt_or_ge ppc 2 with hlt | hge
    · have h0 : ppc = 0 := by omega
      subst h0
      have hle : ((paddedDim image.height ps : ℤ) - ps).fdiv (((0 : ℕ) : ℤ) - 1) ≤ 0 :=
        Int.fdiv_nonpos (by omega) (by norm_num)
      omega
    · exact hge
  have hppr2 : 2 ≤ ppr := by
    rcases Nat.lt_or_ge ppr 2 with hlt | hge
    · have h0 : ppr = 0 := by omega
      subst h0
      have hle : ((paddedDim image.width ps : ℤ) - ps).fdiv (((0 : ℕ) : ℤ) - 1) ≤ 0 :=
        Int.fdiv_nonpos (by omega) (by norm_num)
      omega
    · exact hge
  have hedivX : ((paddedDim image.width ps : ℤ) - ps).fdiv ((ppr : ℤ) - 1)
      = ((paddedDim image.width ps : ℤ) - ps) / ((ppr : ℤ) - 1) :=
    Int.fdiv_eq_ediv _ (by omega)
  have hedivY : ((paddedDim image.height ps : ℤ) - ps).fdiv ((ppc : ℤ) - 1)
      = ((paddedDim image.height ps : ℤ) - ps) / ((ppc : ℤ) - 1) :=
    Int.fdiv_eq_ediv _ (by omega)
  refine ⟨hps1, hppr2, hppc2, rfl, rfl, hPWge, hPHge, hedivX, hedivY,
    by omega, by omega, ?_⟩
  rw [← hysE, ← hxsE]

lemma paddedDim_least (d ps m : ℕ) (hps : 1 ≤ ps) (hdvd : ps ∣ m) (hdm : d ≤ m) :
    paddedDim d ps ≤ m := by
  by_contra hlt
  push_neg at hlt
  obtain ⟨a, rfl⟩ := hdvd
  obtain ⟨b, hb⟩ := paddedDim_dvd d ps hps
  have h1 : a < b := Nat.lt_of_mul_lt_mul_left (hb ▸ hlt)
  have h2 : ps * (a + 1) ≤ ps * b := Nat.mul_le_mul_left ps h1
  have h3 := paddedDim_lt d ps hps
  rw [Nat.mul_add, Nat.mul_one] at h2
  omega

/-- The number of patches produced on success. -/
lemma extract_count {image : Img} {ps ppr ppc : ℕ} {patches : List Img}
    {sx sy : ℤ} {pw ph : ℕ} (hw : 1 ≤ image.width) (hh : 1 ≤ image.height)
    (h : extract_patches_rect image ps ppr ppc = some (patches, sx, sy, pw, ph)) :
    (patches.length : ℤ) =
      (((pw : ℤ) - ps) / sx + 1) * (((ph : ℤ) - ps) / sy + 1) := by
  obtain ⟨hps1, hppr2, hppc2, hpw, hph, hpspw, hpsph, hsxE, hsyE, hsx1, hsy1, hpatch⟩ :=
    extract_facts hw hh h
  have hylen : (pyList ((ph : ℤ) - ps + 1) sy).length = ((ph : ℤ) - ps).toNat / sy.toNat + 1 := by
    rw [pyList_length, pythonRangeLen_of_pos (by omega) (by omega)]
    congr 2
    omega
  have hxlen : (pyList ((pw : ℤ) - ps + 1) sx).length = ((pw : ℤ) - ps).toNat / sx.toNat + 1 := by
    rw [pyList_length, pythonRangeLen_of_pos (by omega) (by omega)]
    congr 2
    omega
  have hcnt : patches.length =
      (pyList ((ph : ℤ) - ps + 1) sy).length * (pyList ((pw : ℤ) - ps + 1) sx).length := by
    rw [hpatch, List.length_flatMap]
    simp only [Function.comp_def, List.length_map]
    rw [List.map_const', List.sum_const_nat]
  rw [hcnt, hylen, hxlen]
  push_cast
  rw [Int.toNat_of_nonneg (show (0 : ℤ) ≤ (pw : ℤ) - ps by omega),
    Int.toNat_of_nonneg (show (0 : ℤ) ≤ (ph : ℤ) - ps by omega),
    Int.toNat_of_nonneg (show (0 : ℤ) ≤ sx by omega),
    Int.toNat_of_nonneg (show (0 : ℤ) ≤ sy by omega)]
  ring

/-- C4: for every input image (of positive dimensions) and `patch_size`,
every patch returned by `extract_patches_rect` has spatial size exactly
`patch_size × patch_size`, and is cropped (inside the canvas) from the image
after it is padded — the padding split as evenly as possible between the two
sides of each axis (`paddedOf`) — so that each padded dimension is the least
multiple of `patch_size` not smaller than the original dimension. -/
theorem C4_patches_are_patch_size_crops_of_least_padded {image : Img}
    {ps ppr ppc : ℕ} {patches : List Img} {sx sy : ℤ} {pw ph : ℕ}
    (hw : 1 ≤ image.width) (hh : 1 ≤ image.height)
    (h : extract_patches_rect image ps ppr ppc = some (patches, sx, sy, pw, ph)) :
    (ps ∣ pw ∧ image.width ≤ pw ∧ ∀ m : ℕ, ps ∣ m → image.width ≤ m → pw ≤ m) ∧
    (ps ∣ ph ∧ image.height ≤ ph ∧ ∀ m : ℕ, ps ∣ m → image.height ≤ m → ph ≤ m) ∧
    pw = (paddedOf image ps).width ∧ ph = (paddedOf image ps).height ∧
    ∀ p ∈ patches, p.width = ps ∧ p.height = ps ∧
      ∃ x y : ℤ, 0 ≤ x ∧ x + ps ≤ pw ∧ 0 ≤ y ∧ y + ps ≤ ph ∧
        p = cropI (paddedOf image ps) x y ps := by
  obtain ⟨hps1, hppr2, hppc2, hpw, hph, hpspw, hpsph, hsxE, hsyE, hsx1, hsy1, hpatch⟩ :=
    extract_facts hw hh h
  refine ⟨?_, ?_, ?_, ?_, ?_⟩
  · exact hpw ▸ ⟨paddedDim_dvd _ _ hps1, paddedDim_ge_self _ _,
      fun m hm hwm => paddedDim_least _ _ _ hps1 hm hwm⟩
  · exact hph ▸ ⟨paddedDim_dvd _ _ hps1, paddedDim_ge_self _ _,
      fun m hm hwm => paddedDim_least _ _ _ hps1 hm hwm⟩
  · rw [hpw, paddedOf_width]
  · rw [hph, paddedOf_height]
  · intro p hp
    rw [hpatch] at hp
    obtain ⟨y, hy, hp2⟩ := List.mem_flatMap.mp hp
    obtain ⟨x, hx, rfl⟩ := List.mem_map.mp hp2
    obtain ⟨hy0, hyle⟩ := mem_pyList_of_pos (by omega) (by omega) hy
    obtain ⟨hx0, hxle⟩ := mem_pyList_of_pos (by omega) (by omega) hx
    exact ⟨rfl, rfl, x, y, hx0, by omega, hy0, by omega, rfl⟩

/-- C5: under the default parameters `patch_size = 128`, `downscale = 32`,
with `patches_per_row = width // 32` and `patches_per_column = height // 32`
as passed by the pipeline, adjacent patches overlap: both strides are
strictly smaller than the patch size. -/
theorem C5_default_pipeline_strides_overlap {image : Img}
    {patches : List Img} {sx sy : ℤ} {pw ph : ℕ}
    (hw : 1 ≤ image.width) (hh : 1 ≤ image.height)
    (h : extract_patches_rect image 128 (image.width / 32) (image.height / 32) =
      some (patches, sx, sy, pw, ph)) :
    sx < 128 ∧ sy < 128 := by
  obtain ⟨hps1, hppr2, hppc2, hpw, hph, hpspw, hpsph, hsxE, hsyE, hsx1, hsy1, _⟩ :=
    extract_facts hw hh h
  have hwlt := paddedDim_lt image.width 128 (by norm_num)
  have hhlt := paddedDim_lt image.height 128 (by norm_num)
  constructor
  · rw [hsxE, Int.ediv_lt_iff_lt_mul (by omega)]
    omega
  · rw [hsyE, Int.ediv_lt_iff_lt_mul (by omega)]
    omega

lemma flatten_chunksOf {γ : Type*} (n : ℕ) (hn : n ≠ 0) :
    ∀ l : List γ, (chunksOf n l).flatten = l
  | [] => by simp [chunksOf]
  | x :: xs => by
    rw [chunksOf, if_neg hn, List.flatten_cons,
      flatten_chunksOf n hn ((x :: xs).drop n), List.take_append_drop]
termination_by l => l.length
decreasing_by simp [List.length_drop]; omega

/-- When the model is a fixed per-image function `f` applied pointwise to
each batch, the whole batched pipeline of lines 132-143 is the pointwise map
`p ↦ normalize (f (transform p))`. -/
lemma embedPatches_eq_map (modelBatch : List Img → List (List ℝ))
    (f : Img → List ℝ) (transform : Img → Img)
    (hmb : ∀ b, modelBatch b = b.map f) (patches : List Img) :
    embedPatches modelBatch transform patches
      = patches.map fun p => normalizeVec (f (transform p)) := by
  unfold embedPatches
  rw [funext hmb, ← List.map_flatten, flatten_chunksOf 8 (by norm_num), normalizeRows,
    List.map_map, List.map_map]
  rfl

/-- C8: on success with positive strides, the number of patches equals
`((padded_w - patch_size) // stride_x + 1) * ((padded_h - patch_size) // stride_y + 1)`,
the value `new_w * new_h` computed by `get_frame_embeddings` (and
`save_frame_embeddings`), so the per-frame feature tensor reshapes to
`(new_h, new_w)`. -/
theorem C8_patch_count_is_new_w_mul_new_h (image : Img)
    (hw : 1 ≤ image.width) (hh : 1 ≤ image.height) :
    (∀ (ps ppr ppc : ℕ) (patches : List Img) (sx sy : ℤ) (pw ph : ℕ),
      extract_patches_rect image ps ppr ppc = some (patches, sx, sy, pw, ph) →
      1 ≤ sx → 1 ≤ sy →
      (patches.length : ℤ) =
        (((pw : ℤ) - ps).fdiv sx + 1) * (((ph : ℤ) - ps).fdiv sy + 1)) ∧
    (∀ (modelBatch : List Img → List (List ℝ)) (f : Img → List ℝ)
      (transform : Img → Img) (ps ds : ℕ) (feats : List (List ℝ)) (nw nh : ℤ),
      (∀ b, modelBatch b = b.map f) →
      get_frame_embeddings modelBatch transform image ps ds = some (feats, nw, nh) →
      (feats.length : ℤ) = nw * nh) := by
  have key : ∀ (ps ppr ppc : ℕ) (patches : List Img) (sx sy : ℤ) (pw ph : ℕ),
      extract_patches_rect image ps ppr ppc = some (patches, sx, sy, pw, ph) →
      (patches.length : ℤ) =
        (((pw : ℤ) - ps).fdiv sx + 1) * (((ph : ℤ) - ps).fdiv sy + 1) := by
    intro ps ppr ppc patches sx sy pw ph h
    obtain ⟨hps1, hppr2, hppc2, hpw, hph, hpspw, hpsph, hsxE, hsyE, hsx1, hsy1, _⟩ :=
      extract_facts hw hh h
    rw [Int.fdiv_eq_ediv _ (by omega), Int.fdiv_eq_ediv _ (by omega)]
    exact extract_count hw hh h
  constructor
  · exact fun ps ppr ppc patches sx sy pw ph h _ _ => key ps ppr ppc patches sx sy pw ph h
  · intro modelBatch f transform ps ds feats nw nh hmb heq
    simp only [get_frame_embeddings] at heq
    rcases hext : extract_patches_rect image ps (image.width / ds) (image.height / ds)
      with _ | ⟨patches, sx, sy, pw, ph⟩
    · simp [hext] at heq
    · simp only [hext, Option.some.injEq, Prod.mk.injEq] at heq
      obtain ⟨hfeats, hnw, hnh⟩ := heq
      subst hnw hnh
      have hlen : feats.length = patches.length := by
        rw [← hfeats, embedPatches_eq_map modelBatch f transform hmb, List.length_map]
      rw [hlen]
      exact key ps _ _ patches sx sy pw ph hext

/-- C9 (amended): for `patch_size ≥ 1` and an image with positive
dimensions, `extract_patches_rect` is total (returns rather than raising)
iff `patches_per_row ≥ 2`, `patches_per_column ≥ 2`, and both computed
strides are at least 1; moreover the stride conditions imply that the
padded dimensions strictly exceed `patch_size` (the converse implication is
false, see the counterexample). -/
theorem C9_totality_characterization (image : Img) (ps ppr ppc : ℕ)
    (hps : 1 ≤ ps) (hw : 1 ≤ image.width) (hh : 1 ≤ image.height) :
    ((extract_patches_rect image ps ppr ppc).isSome ↔
      (2 ≤ ppr ∧ 2 ≤ ppc ∧
       1 ≤ ((paddedDim image.width ps : ℤ) - ps).fdiv ((ppr : ℤ) - 1) ∧
       1 ≤ ((paddedDim image.height ps : ℤ) - ps).fdiv ((ppc : ℤ) - 1))) ∧
    ((2 ≤ ppr ∧ 2 ≤ ppc ∧
       1 ≤ ((paddedDim image.width ps : ℤ) - ps).fdiv ((ppr : ℤ) - 1) ∧
       1 ≤ ((paddedDim image.height ps : ℤ) - ps).fdiv ((ppc : ℤ) - 1)) →
      ps < paddedDim image.width ps ∧ ps < paddedDim image.height ps) := by
  have himp : (2 ≤ ppr ∧ 2 ≤ ppc ∧
       1 ≤ ((paddedDim image.width ps : ℤ) - ps).fdiv ((ppr : ℤ) - 1) ∧
       1 ≤ ((paddedDim image.height ps : ℤ) - ps).fdiv ((ppc : ℤ) - 1)) →
      ps < paddedDim image.width ps ∧ ps < paddedDim image.height ps := by
    rintro ⟨hppr2, hppc2, hsx1, hsy1⟩
    rw [Int.fdiv_eq_ediv _ (by omega)] at hsx1
    rw [Int.fdiv_eq_ediv _ (by omega)] at hsy1
    rw [Int.le_ediv_iff_mul_le (by omega)] at hsx1
    rw [Int.le_ediv_iff_mul_le (by omega)] at hsy1
    omega
  refine ⟨⟨?_, ?_⟩, himp⟩
  · intro hsome
    obtain ⟨out, hout⟩ := Option.isSome_iff_exists.mp hsome
    obtain ⟨patches, sx, sy, pw, ph⟩ := out
    obtain ⟨hps1, hppr2, hppc2, hpw, hph, hpspw, hpsph, hsxE, hsyE, hsx1, hsy1, _⟩ :=
      extract_facts hw hh hout
    refine ⟨hppr2, hppc2, ?_, ?_⟩
    · rw [Int.fdiv_eq_ediv _ (by omega), ← hpw, ← hsxE]
      exact hsx1
    · rw [Int.fdiv_eq_ediv _ (by omega), ← hph, ← hsyE]
      exact hsy1
  · rintro hcond
    obtain ⟨hpwgt, hphgt⟩ := himp hcond
    obtain ⟨hppr2, hppc2, hsx1, hsy1⟩ := hcond
    simp only [extract_patches_rect, ← paddedOf_def, paddedOf_width, paddedOf_height]
    rw [if_neg (by omega), if_neg (by omega)]
    have hyne : pyList ((paddedDim image.height ps : ℤ) - ps + 1)
        (((paddedDim image.height ps : ℤ) - ps).fdiv ((ppc : ℤ) - 1)) ≠ [] :=
      pyList_ne_nil_of_pos (by omega) (by omega)
    obtain ⟨y, ytl, hyE⟩ := List.exists_cons_of_ne_nil hyne
    have e1 : pythonRange ((paddedDim image.height ps : ℤ) - ps + 1)
        (((paddedDim image.height ps : ℤ) - ps).fdiv ((ppc : ℤ) - 1)) = some (y :: ytl) := by
      rw [pythonRange_eq _ _ (by omega), hyE]
    have e2 : pythonRange ((paddedDim image.width ps : ℤ) - ps + 1)
        (((paddedDim image.width ps : ℤ) - ps).fdiv ((ppr : ℤ) - 1)) =
        some (pyList ((paddedDim image.width ps : ℤ) - ps + 1)
          (((paddedDim image.width ps : ℤ) - ps).fdiv ((ppr : ℤ) - 1))) :=
      pythonRange_eq _ _ (by omega)
    have hxne : pyList ((paddedDim image.width ps : ℤ) - ps + 1)
        (((paddedDim image.width ps : ℤ) - ps).fdiv ((ppr : ℤ) - 1)) ≠ [] :=
      pyList_ne_nil_of_pos (by omega) (by omega)
    have hflat : ((y :: ytl).flatMap fun yy =>
        (pyList ((paddedDim image.width ps : ℤ) - ps + 1)
          (((paddedDim image.width ps : ℤ) - ps).fdiv ((ppr : ℤ) - 1))).map
            fun x => cropI (paddedOf image ps) x yy ps) ≠ [] := by
      simp only [List.flatMap_cons]
      intro hbad
      rcases List.append_eq_nil.mp hbad with ⟨h1, _⟩
      exact hxne (List.map_eq_nil_iff.mp h1)
    simp only [e1, e2]
    rw [if_neg (by simpa using hflat)]
    simp

/-- Counterexample to C9's parenthetical equivalence: a 129 × 300 image
with `patch_size = 128`, `patches_per_row = 200`, `patches_per_column = 2`
has both padded dimensions strictly larger than the patch size and both
patch counts at least 2, yet `extract_patches_rect` fails (the computed
`stride_x` is 0, so the inner `range` raises `ValueError`). -/
theorem C9_counterexample :
    (2 ≤ 200 ∧ 2 ≤ 2 ∧ 128 < paddedDim 129 128 ∧ 128 < paddedDim 300 128) ∧
    extract_patches_rect ⟨129, 300, fun _ _ => 0⟩ 128 200 2 = none := by
  constructor
  · refine ⟨by norm_num, by norm_num, ?_, ?_⟩ <;> decide
  · rfl

theorem C4_witness :
    1 ≤ imgW.width ∧ 1 ≤ imgW.height ∧
    (match extract_patches_rect imgW 128 4 4 with
     | none => False
     | some (patches, _, _, pw, ph) =>
        (128 ∣ pw ∧ imgW.width ≤ pw ∧ ∀ m : ℕ, 128 ∣ m → imgW.width ≤ m → pw ≤ m) ∧
        (128 ∣ ph ∧ imgW.height ≤ ph ∧ ∀ m : ℕ, 128 ∣ m → imgW.height ≤ m → ph ≤ m) ∧
        pw = (paddedOf imgW 128).width ∧ ph = (paddedOf imgW 128).height ∧
        ∀ p ∈ patches, p.width = 128 ∧ p.height = 128 ∧
          ∃ x y : ℤ, 0 ≤ x ∧ x + 128 ≤ pw ∧ 0 ≤ y ∧ y + 128 ≤ ph ∧
            p = cropI (paddedOf imgW 128) x y 128) := by
  refine ⟨by decide, by decide, ?_⟩
  have hs : (extract_patches_rect imgW 128 4 4).isSome := by rfl
  obtain ⟨out, hout⟩ := Option.isSome_iff_exists.mp hs
  obtain ⟨patches, sx, sy, pw, ph⟩ := out
  rw [hout]
  exact C4_patches_are_patch_size_crops_of_least_padded (by decide) (by decide) hout

theorem C5_witness :
    1 ≤ imgW.width ∧ 1 ≤ imgW.height ∧
    (match extract_patches_rect imgW 128 (imgW.width / 32) (imgW.height / 32) with
     | none => False
     | some (_, sx, sy, _, _) => sx < 128 ∧ sy < 128) := by
  refine ⟨by decide, by decide, ?_⟩
  have hs : (extract_patches_rect imgW 128 (imgW.width / 32) (imgW.height / 32)).isSome := by
    rfl
  obtain ⟨out, hout⟩ := Option.isSome_iff_exists.mp hs
  obtain ⟨patches, sx, sy, pw, ph⟩ := out
  rw [hout]
  exact C5_default_pipeline_strides_overlap (by decide) (by decide) hout

theorem C8_witness :
    1 ≤ imgW.width ∧ 1 ≤ imgW.height ∧
    (match extract_patches_rect imgW 128 4 4 with
     | none => False
     | some (patches, sx, sy, pw, ph) =>
        (patches.length : ℤ) =
          (((pw : ℤ) - 128).fdiv sx + 1) * (((ph : ℤ) - 128).fdiv sy + 1)) ∧
    (match get_frame_embeddings (fun b => b.map fun _ => ([] : List ℝ))
        (fun p => p) imgW 128 32 with
     | none => False
     | some (feats, nw, nh) => (feats.length : ℤ) = nw * nh) := by
  refine ⟨by decide, by decide, ?_, ?_⟩
  · have hs : (extract_patches_rect imgW 128 4 4).isSome := by rfl
    obtain ⟨out, hout⟩ := Option.isSome_iff_exists.mp hs
    obtain ⟨patches, sx, sy, pw, ph⟩ := out
    rw [hout]
    exact (C8_patch_count_is_new_w_mul_new_h imgW (by decide) (by decide)).1
      128 4 4 patches sx sy pw ph hout
      (extract_facts (by decide) (by decide) hout).2.2.2.2.2.2.2.2.2.1
      (extract_facts (by decide) (by decide) hout).2.2.2.2.2.2.2.2.2.2.1
  · have hs : (get_frame_embeddings (fun b => b.map fun _ => ([] : List ℝ))
        (fun p => p) imgW 128 32).isSome := by rfl
    obtain ⟨out, hout⟩ := Option.isSome_iff_exists.mp hs
    obtain ⟨feats, nw, nh⟩ := out
    rw [hout]
    exact (C8_patch_count_is_new_w_mul_new_h imgW (by decide) (by decide)).2
      _ (fun _ => ([] : List ℝ)) (fun p => p) 128 32 feats nw nh (fun b => rfl) hout

theorem C9_witness :
    (1 ≤ 128 ∧ 1 ≤ imgW.width ∧ 1 ≤ imgW.height) ∧
    (extract_patches_rect imgW 128 4 4).isSome ∧
    (2 ≤ 4 ∧ 2 ≤ 4 ∧
      1 ≤ ((paddedDim imgW.width 128 : ℤ) - 128).fdiv ((4 : ℤ) - 1) ∧
      1 ≤ ((paddedDim imgW.height 128 : ℤ) - 128).fdiv ((4 : ℤ) - 1)) ∧
    128 < paddedDim imgW.width 128 := by
  refine ⟨⟨by decide, by decide, by decide⟩, ?_, ⟨by decide, by decide, by decide, by decide⟩, ?_⟩
  · exact (C9_totality_characterization imgW 128 4 4 (by decide) (by decide) (by decide)).1.mpr
      ⟨by decide, by decide, by decide, by decide⟩
  · exact ((C9_totality_characterization imgW 128 4 4 (by decide) (by decide) (by decide)).2
      ⟨by decide, by decide, by decide, by decide⟩).1

/-! Facts about `negative_sample`. -/

lemma drawNegative_some {source : List α} {embedding : List (List α)} {threshold : α}
    {stream : List ℕ} {row : List α} {rest : List ℕ}
    (h : drawNegative source embedding threshold stream = some (row, rest)) :
    row ∈ embedding ∧ dot row source < threshold := by
  induction stream with
  | nil => simp [drawNegative] at h
  | cons idx s ih =>
    rcases hg : embedding[idx]? with _ | r
    · simp only [drawNegative, hg] at h
      exact ih h
    · simp only [drawNegative, hg] at h
      by_cases hc : threshold ≤ dot r source
      · rw [if_pos hc] at h
        exact ih h
      · rw [if_neg hc] at h
        simp only [Option.some.injEq, Prod.mk.injEq] at h
        obtain ⟨h1, _⟩ := h
        subst h1
        exact ⟨List.getElem?_mem hg, not_le.mp hc⟩

lemma negative_sample_spec {source : List α} {embedding : List (List α)} {threshold : α} :
    ∀ (k : ℕ) (stream : List ℕ) (result : List (List α)),
      negative_sample source embedding k threshold stream = some result →
      result.length = k ∧ ∀ v ∈ result, v ∈ embedding ∧ dot v source < threshold := by
  intro k
  induction k with
  | zero =>
    intro stream result h
    simp only [negative_sample, Option.some.injEq] at h
    subst h
    simp
  | succ k ih =>
    intro stream result h
    simp only [negative_sample] at h
    rcases hd : drawNegative source embedding threshold stream with _ | ⟨row, rest⟩
    · rw [hd] at h
      exact Option.noConfusion h
    · simp only [hd] at h
      rcases hn : negative_sample source embedding k threshold rest with _ | negs
      · simp only [hn] at h
        exact Option.noConfusion h
      · simp only [hn, Option.some.injEq] at h
        subst h
        obtain ⟨hmem, hlt⟩ := drawNegative_some hd
        obtain ⟨hlen, hall⟩ := ih rest negs hn
        refine ⟨by simp [hlen], ?_⟩
        intro v hv
        rcases List.mem_cons.mp hv with rfl | hv2
        · exact ⟨hmem, hlt⟩
        · exact hall v hv2

/-- Evaluation helper: a stream that repeatedly draws one accepted index
makes `negative_sample` return `k` copies of that row. -/
lemma negative_sample_replicate_accept {source : List α} {embedding : List (List α)}
    {threshold : α} {row : List α} {idx : ℕ}
    (hg : embedding[idx]? = some row) (hacc : dot row source < threshold) :
    ∀ k : ℕ, negative_sample source embedding k threshold (List.replicate k idx)
      = some (List.replicate k row)
  | 0 => rfl
  | k + 1 => by
    have ih := negative_sample_replicate_accept hg hacc k
    simp only [List.replicate_succ, negative_sample, drawNegative, hg,
      if_neg (not_le.mpr hacc), ih]

/-- C2: for every embedding matrix, source feature, threshold and `k ≥ 1`,
if `negative_sample` returns, it returns exactly `k` vectors, each of which
is a row of the embedding matrix whose dot product with the source feature
is strictly less than the threshold. -/
theorem C2_negative_sample_returns_k_subthreshold_rows (source : List α)
    (embedding : List (List α)) (k : ℕ) (threshold : α) (stream : List ℕ)
    (result : List (List α)) (_hk : 1 ≤ k)
    (h : negative_sample source embedding k threshold stream = some result) :
    result.length = k ∧ ∀ v ∈ result, v ∈ embedding ∧ dot v source < threshold :=
  negative_sample_spec k stream result h

theorem C2_witness :
    (1 : ℕ) ≤ 1 ∧
    negative_sample ([1] : List ℚ) [[2], [0]] 1 1 [1] = some [[0]] ∧
    (([[0]] : List (List ℚ)).length = 1 ∧
      ∀ v ∈ ([[0]] : List (List ℚ)), v ∈ ([[2], [0]] : List (List ℚ)) ∧ dot v [1] < 1) := by
  have hns : negative_sample ([1] : List ℚ) [[2], [0]] 1 1 [1] = some [[0]] :=
    @negative_sample_replicate_accept ℚ _ [1] [[2], [0]] 1 [0] 1 rfl (by norm_num [dot]) 1
  exact ⟨le_refl 1, hns,
    C2_negative_sample_returns_k_subthreshold_rows [1] [[2], [0]] 1 1 [1] [[0]]
      (le_refl 1) hns⟩

lemma drawNegative_none_of_rejected {source : List α} {embedding : List (List α)}
    {threshold : α} (stream : List ℕ)
    (hrej : ∀ idx ∈ stream, ∀ row, embedding[idx]? = some row →
      threshold ≤ dot row source) :
    drawNegative source embedding threshold stream = none := by
  induction stream with
  | nil => rfl
  | cons idx s ih =>
    rcases hg : embedding[idx]? with _ | r
    · simp only [drawNegative, hg]
      exact ih fun j hj => hrej j (List.mem_cons_of_mem _ hj)
    · simp only [drawNegative, hg,
        if_pos (hrej idx (List.mem_cons_self _ _) r hg)]
      exact ih fun j hj => hrej j (List.mem_cons_of_mem _ hj)

lemma negative_sample_none_of_draw_none {source : List α} {embedding : List (List α)}
    {threshold : α} {k : ℕ} (hk : 1 ≤ k) {stream : List ℕ}
    (h : drawNegative source embedding threshold stream = none) :
    negative_sample source embedding k threshold stream = none := by
  cases k with
  | zero => omega
  | succ k => simp only [negative_sample, h]

/-- Evaluation of the `process_frames` threshold on the two-patch frame
with rows `[1]`, `[0]` and source `[1]`: the similarities are `1` and `0`,
and the 0.7-quantile of `{0, 1}` is `7/10`. -/
lemma frameThreshold_pair :
    frameThreshold ([[1], [0]] : List (List ℚ)) [1] = 7 / 10 := by
  norm_num [frameThreshold, unscaledSimilarity, dot, quantile07,
    List.insertionSort, List.orderedInsert]

/-- Counterexample to C6 as stated: with the two–patch frame whose rows are
`[1]` and `[0]` and source feature `[1]`, the `process_frames` threshold is
the 0.7-quantile `7/10` of the similarities `{1, 0}`, and the outcome stream
that always draws index 0 (the patch with similarity `1 ≥ 7/10`) makes the
rejection loop run forever: no finite prefix lets `negative_sample` return. -/
theorem C6_counterexample :
    ¬ negSampleTerminates ([1] : List ℚ) [[1], [0]] 40
      (frameThreshold [[1], [0]] [1]) (fun _ => 0) := by
  rintro ⟨n, hn⟩
  have hdraw : drawNegative ([1] : List ℚ) [[1], [0]] (frameThreshold [[1], [0]] [1])
      ((List.range n).map fun _ => 0) = none := by
    apply drawNegative_none_of_rejected
    intro idx hidx row hrow
    have h0 : idx = 0 := by
      obtain ⟨i, _, hvalue⟩ := List.mem_map.mp hidx
      exact hvalue.symm
    subst h0
    have hrow' : [1] = row := by simpa using hrow
    subst hrow'
    rw [frameThreshold_pair]
    norm_num [dot]
  rw [negative_sample_none_of_draw_none (by norm_num) hdraw] at hn
  simp at hn

lemma drawNegative_of_countP_pos {source : List α} {embedding : List (List α)}
    {threshold : α} :
    ∀ stream : List ℕ, 1 ≤ stream.countP (acceptsIdx source embedding threshold) →
      ∃ row rest, drawNegative source embedding threshold stream = some (row, rest) ∧
        stream.countP (acceptsIdx source embedding threshold)
          = rest.countP (acceptsIdx source embedding threshold) + 1 := by
  intro stream
  induction stream with
  | nil => intro h; simp at h
  | cons idx s ih =>
    intro h
    rcases hg : embedding[idx]? with _ | r
    · have hacc : acceptsIdx source embedding threshold idx = false := by
        simp [acceptsIdx, hg]
      rw [List.countP_cons, hacc, if_neg Bool.false_ne_true, Nat.add_zero] at h
      obtain ⟨row, rest, hdraw, hcount⟩ := ih h
      refine ⟨row, rest, ?_, ?_⟩
      · simp only [drawNegative, hg]
        exact hdraw
      · rw [List.countP_cons, hacc]
        simp [hcount]
    · by_cases hc : threshold ≤ dot r source
      · have hnacc : ¬ dot r source < threshold := not_lt.mpr hc
        have hacc : acceptsIdx source embedding threshold idx = false := by
          simp [acceptsIdx, hg, hnacc]
        rw [List.countP_cons, hacc, if_neg Bool.false_ne_true, Nat.add_zero] at h
        obtain ⟨row, rest, hdraw, hcount⟩ := ih h
        refine ⟨row, rest, ?_, ?_⟩
        · simp only [drawNegative, hg, if_pos hc]
          exact hdraw
        · rw [List.countP_cons, hacc]
          simp [hcount]
      · have hacc : acceptsIdx source embedding threshold idx = true := by
          simp [acceptsIdx, hg, not_le.mp hc]
        refine ⟨r, s, ?_, ?_⟩
        · simp only [drawNegative, hg, if_neg hc]
        · rw [List.countP_cons, hacc]
          simp

lemma negative_sample_isSome_of_countP {source : List α} {embedding : List (List α)}
    {threshold : α} :
    ∀ (k : ℕ) (stream : List ℕ),
      k ≤ stream.countP (acceptsIdx source embedding threshold) →
      (negative_sample source embedding k threshold stream).isSome := by
  intro k
  induction k with
  | zero => intro stream _; simp [negative_sample]
  | succ k ih =>
    intro stream h
    obtain ⟨row, rest, hdraw, hcount⟩ :=
      @drawNegative_of_countP_pos _ _ source embedding threshold stream (by omega)
    have hrest := ih rest (by omega)
    simp only [negative_sample, hdraw]
    rcases hns : negative_sample source embedding k threshold rest with _ | negs
    · rw [hns] at hrest
      simp at hrest
    · simp [hns]

/-- C6 (amended): for every frame, `negative_sample` — called as
`process_frames` calls it, with `k = 40` and threshold the 0.7-quantile of
the frame's unscaled similarity values — terminates on every outcome of the
random index stream that draws a patch of similarity strictly below the
threshold at least 40 times; it does not terminate on every outcome
unconditionally (see the counterexample). -/
theorem C6_negative_sampling_terminates_given_enough_accepted_draws
    (embedding : List (List α)) (source : List α) (stream : List ℕ)
    (h : 40 ≤ stream.countP
      (acceptsIdx source embedding (frameThreshold embedding source))) :
    (negative_sample source embedding 40
      (frameThreshold embedding source) stream).isSome :=
  negative_sample_isSome_of_countP 40 stream h

theorem C6_witness :
    40 ≤ (List.replicate 40 1).countP
      (acceptsIdx ([1] : List ℚ) [[1], [0]] (frameThreshold [[1], [0]] [1])) ∧
    (negative_sample ([1] : List ℚ) [[1], [0]] 40
      (frameThreshold [[1], [0]] [1]) (List.replicate 40 1)).isSome := by
  have hacc : acceptsIdx ([1] : List ℚ) [[1], [0]] (frameThreshold [[1], [0]] [1]) 1
      = true := by
    rw [frameThreshold_pair]
    norm_num [acceptsIdx, dot]
  have hcount : (List.replicate 40 1).countP
      (acceptsIdx ([1] : List ℚ) [[1], [0]] (frameThreshold [[1], [0]] [1])) = 40 := by
    rw [List.countP_eq_length.mpr, List.length_replicate]
    intro a ha
    rw [(List.eq_of_mem_replicate ha : a = 1)]
    exact hacc
  exact ⟨by omega,
    C6_negative_sampling_terminates_given_enough_accepted_draws [[1], [0]] [1]
      (List.replicate 40 1) (by omega)⟩

lemma length_unscaledSimilarity (embedding : List (List α)) (source : List α) :
    (unscaledSimilarity embedding source).length = embedding.length := by
  simp [unscaledSimilarity]

/-- C1: in `process_frames`, for each frame the score of patch `i` before
the contrast-stretching `MAP` is `SCALE_AUDIO_IMAGE` times the dot product
of patch `i`'s embedding with the query feature, minus `lambda_` times
`SCALE_AUDIO_IMAGE` times the mean dot product of patch `i`'s embedding
with the `k = 40` sampled negatives; with a supervision feature, the first
term is instead the average of the scaled source similarity and the mean
scaled supervision similarity. -/
theorem C1_process_frames_score_formula (embedding : List (List α))
    (source : List α) (supervision : Option (List (List α))) (lambda_ : α)
    (stream : List ℕ) (scores : List α)
    (h : processFrameScores embedding source supervision lambda_ stream = some scores) :
    ∃ negatives,
      negative_sample source embedding 40 (frameThreshold embedding source) stream
        = some negatives ∧
      negatives.length = 40 ∧
      scores.length = embedding.length ∧
      ∀ i < embedding.length,
        scores.getD i 0 =
          (match supervision with
           | none => SCALE_AUDIO_IMAGE * dot (embedding.getD i []) source
           | some sup =>
              (SCALE_AUDIO_IMAGE * dot (embedding.getD i []) source +
                (sup.map fun t => SCALE_IMAGE_TEXT * dot (embedding.getD i []) t).sum
                  / (sup.length : α)) / 2)
          - lambda_ * (SCALE_AUDIO_IMAGE *
              ((negatives.map fun n => dot (embedding.getD i []) n).sum / 40)) := by
  simp only [processFrameScores] at h
  rcases hns : negative_sample source embedding 40
      (quantile07 (unscaledSimilarity embedding source)) stream with _ | negs
  · rw [hns] at h
    rcases supervision with _ | sup
    · exact Option.noConfusion h
    · exact Option.noConfusion h
  · rw [hns] at h
    have hlen40 : negs.length = 40 := (negative_sample_spec 40 stream negs hns).1
    have hcast40 : ((negs.length : ℕ) : α) = (40 : α) := by
      rw [hlen40]; norm_num
    refine ⟨negs, hns, hlen40, ?_⟩
    rcases supervision with _ | sup
    · simp only [Option.some.injEq] at h
      subst h
      constructor
      · simp [length_unscaledSimilarity, unscaledSimilarity]
      · intro i hi
        have hi1 : i < (List.zipWith (fun s p => s - lambda_ * p)
            ((unscaledSimilarity embedding source).map fun s => SCALE_AUDIO_IMAGE * s)
            (embedding.map fun row =>
              SCALE_AUDIO_IMAGE * mean (negs.map fun n => dot row n))).length := by
          simp [length_unscaledSimilarity, unscaledSimilarity]
          omega
        have hD : embedding.getD i [] = embedding[i] := List.getD_eq_getElem _ _ hi
        rw [List.getD_eq_getElem _ _ hi1]
        simp only [List.getElem_zipWith, List.getElem_map, unscaledSimilarity, hD, mean,
          List.length_map, hcast40]
    · simp only [Option.some.injEq] at h
      subst h
      constructor
      · simp [length_unscaledSimilarity, unscaledSimilarity]
      · intro i hi
        have hi1 : i < (List.zipWith (fun s p => s - lambda_ * p)
            (List.zipWith
              (fun s row => (s + mean (sup.map fun t => SCALE_IMAGE_TEXT * dot row t)) / 2)
              ((unscaledSimilarity embedding source).map fun s => SCALE_AUDIO_IMAGE * s)
              embedding)
            (embedding.map fun row =>
              SCALE_AUDIO_IMAGE * mean (negs.map fun n => dot row n))).length := by
          simp [length_unscaledSimilarity, unscaledSimilarity]
          omega
        have hD : embedding.getD i [] = embedding[i] := List.getD_eq_getElem _ _ hi
        rw [List.getD_eq_getElem _ _ hi1]
        simp only [List.getElem_zipWith, List.getElem_map, unscaledSimilarity, hD, mean,
          List.length_map, hcast40]

theorem C1_witness :
    processFrameScores ([[1], [0]] : List (List ℚ)) [1] none (1 / 5) (List.replicate 40 1)
      = some [68132 / 1000, 0] ∧
    ∃ negatives,
      negative_sample ([1] : List ℚ) [[1], [0]] 40 (frameThreshold [[1], [0]] [1])
          (List.replicate 40 1) = some negatives ∧
      negatives.length = 40 ∧
      ([68132 / 1000, 0] : List ℚ).length = ([[1], [0]] : List (List ℚ)).length ∧
      ∀ i < ([[1], [0]] : List (List ℚ)).length,
        ([68132 / 1000, 0] : List ℚ).getD i 0 =
          SCALE_AUDIO_IMAGE * dot (([[1], [0]] : List (List ℚ)).getD i []) [1]
          - (1 / 5) * (SCALE_AUDIO_IMAGE *
              ((negatives.map fun n => dot (([[1], [0]] : List (List ℚ)).getD i []) n).sum
                / 40)) := by
  have hacc : dot ([0] : List ℚ) [1]
      < quantile07 (unscaledSimilarity ([[1], [0]] : List (List ℚ)) [1]) := by
    rw [show quantile07 (unscaledSimilarity ([[1], [0]] : List (List ℚ)) [1]) = 7 / 10
      from frameThreshold_pair]
    norm_num [dot]
  have hns : negative_sample ([1] : List ℚ) [[1], [0]] 40
      (quantile07 (unscaledSimilarity ([[1], [0]] : List (List ℚ)) [1]))
      (List.replicate 40 1) = some (List.replicate 40 [0]) :=
    negative_sample_replicate_accept rfl hacc 40
  have h : processFrameScores ([[1], [0]] : List (List ℚ)) [1] none (1 / 5)
      (List.replicate 40 1) = some [68132 / 1000, 0] := by
    simp only [processFrameScores, hns]
    norm_num [unscaledSimilarity, dot, mean, SCALE_AUDIO_IMAGE, List.sum_replicate,
      List.map_replicate]
  exact ⟨h, C1_process_frames_score_formula [[1], [0]] [1] none (1 / 5)
    (List.replicate 40 1) [68132 / 1000, 0] h⟩

/-- C7: each patch is embedded independently.  Treating the model as a fixed
per-image function (`modelBatch` applies `f` pointwise to its batch), two
patch lists of equal length that agree at index `i` get the same normalized
feature vector at index `i`; changing any other patch leaves patch `i`'s
feature unchanged. -/
theorem C7_patch_embedding_independence
    (modelBatch : List Img → List (List ℝ)) (f : Img → List ℝ)
    (transform : Img → Img) (hmb : ∀ b, modelBatch b = b.map f)
    (p q : List Img) (hlen : p.length = q.length) (i : ℕ) (hip : i < p.length)
    (hagree : p.getD i blankImg = q.getD i blankImg) :
    (embedPatches modelBatch transform p).getD i []
      = (embedPatches modelBatch transform q).getD i [] := by
  have hiq : i < q.length := hlen ▸ hip
  rw [embedPatches_eq_map modelBatch f transform hmb p,
    embedPatches_eq_map modelBatch f transform hmb q]
  have h1 : i < (p.map fun x => normalizeVec (f (transform x))).length := by
    simpa using hip
  have h2 : i < (q.map fun x => normalizeVec (f (transform x))).length := by
    simpa using hiq
  rw [List.getD_eq_getElem _ _ h1, List.getD_eq_getElem _ _ h2, List.getElem_map,
    List.getElem_map, ← List.getD_eq_getElem p blankImg hip,
    ← List.getD_eq_getElem q blankImg hiq, hagree]

theorem C7_witness :
    (∀ b, mbW b = b.map fW) ∧
    ([imgA, imgB] : List Img).length = ([imgA, imgC] : List Img).length ∧
    0 < ([imgA, imgB] : List Img).length ∧
    ([imgA, imgB] : List Img).getD 0 blankImg
      = ([imgA, imgC] : List Img).getD 0 blankImg ∧
    (embedPatches mbW (fun p => p) [imgA, imgB]).getD 0 []
      = (embedPatches mbW (fun p => p) [imgA, imgC]).getD 0 [] :=
  ⟨fun _ => rfl, rfl, by decide, rfl,
    C7_patch_embedding_independence mbW fW (fun p => p) (fun _ => rfl)
      [imgA, imgB] [imgA, imgC] rfl 0 (by decide) rfl⟩

/-! Norm and cosine-similarity facts (C10). -/

lemma l2norm_eq (v : List ℝ) :
    l2norm v = Real.sqrt ((v.map fun x => x ^ 2).sum) := rfl

lemma sum_map_getD (f : ℝ → ℝ) :
    ∀ l : List ℝ, (l.map f).sum = ∑ i ∈ Finset.range l.length, f (l.getD i 0)
  | [] => by simp
  | a :: l => by
    rw [List.map_cons, List.sum_cons, List.length_cons, Finset.sum_range_succ']
    simp only [List.getD_cons_succ, List.getD_cons_zero]
    rw [sum_map_getD f l]
    ring

lemma dot_eq_sum :
    ∀ u v : List ℝ, dot u v
      = ∑ i ∈ Finset.range (min u.length v.length), u.getD i 0 * v.getD i 0
  | [], v => by simp [dot]
  | a :: u, [] => by simp [dot]
  | a :: u, b :: v => by
    rw [show dot (a :: u) (b :: v) = a * b + dot u v from by
      simp [dot, List.zipWith]]
    rw [dot_eq_sum u v, List.length_cons, List.length_cons, Nat.succ_min_succ,
      Finset.sum_range_succ']
    simp only [List.getD_cons_succ, List.getD_cons_zero]
    ring

lemma sumsq_nonneg (v : List ℝ) : 0 ≤ (v.map fun x => x ^ 2).sum := by
  apply List.sum_nonneg
  intro x hx
  obtain ⟨a, _, rfl⟩ := List.mem_map.mp hx
  exact sq_nonneg a

lemma dot_sq_le (u v : List ℝ) :
    (dot u v) ^ 2 ≤ ((u.map fun x => x ^ 2).sum) * ((v.map fun x => x ^ 2).sum) := by
  rw [dot_eq_sum, sum_map_getD, sum_map_getD]
  refine (Finset.sum_mul_sq_le_sq_mul_sq (Finset.range (min u.length v.length))
    (fun i => u.getD i 0) (fun i => v.getD i 0)).trans ?_
  apply mul_le_mul
  · exact Finset.sum_le_sum_of_subset_of_nonneg
      (Finset.range_subset.mpr (min_le_left _ _)) (fun i _ _ => sq_nonneg _)
  · exact Finset.sum_le_sum_of_subset_of_nonneg
      (Finset.range_subset.mpr (min_le_right _ _)) (fun i _ _ => sq_nonneg _)
  · exact Finset.sum_nonneg fun i _ => sq_nonneg _
  · exact Finset.sum_nonneg fun i _ => sq_nonneg _

lemma l2norm_nonneg (v : List ℝ) : 0 ≤ l2norm v := Real.sqrt_nonneg _

lemma sq_l2norm (v : List ℝ) : l2norm v ^ 2 = (v.map fun x => x ^ 2).sum :=
  Real.sq_sqrt (sumsq_nonneg v)

lemma abs_dot_le (u v : List ℝ) : |dot u v| ≤ l2norm u * l2norm v := by
  have h : (dot u v) ^ 2 ≤ (l2norm u * l2norm v) ^ 2 := by
    rw [mul_pow, sq_l2norm, sq_l2norm]
    exact dot_sq_le u v
  calc |dot u v| = Real.sqrt ((dot u v) ^ 2) := (Real.sqrt_sq_eq_abs _).symm
    _ ≤ Real.sqrt ((l2norm u * l2norm v) ^ 2) := Real.sqrt_le_sqrt h
    _ = |l2norm u * l2norm v| := Real.sqrt_sq_eq_abs _
    _ = l2norm u * l2norm v :=
        abs_of_nonneg (mul_nonneg (l2norm_nonneg u) (l2norm_nonneg v))

lemma sumsq_normalizeVec (v : List ℝ) :
    ((normalizeVec v).map fun x => x ^ 2).sum
      = ((v.map fun x => x ^ 2).sum) / (l2norm v) ^ 2 := by
  unfold normalizeVec
  rw [List.map_map]
  have hfun : ((fun x => x ^ 2) ∘ fun x => x / l2norm v)
      = fun x => x ^ 2 * ((l2norm v ^ 2)⁻¹) := by
    funext x
    simp only [Function.comp, div_pow, div_eq_mul_inv]
    rw [mul_pow, inv_pow]
  rw [hfun, List.sum_map_mul_right, ← div_eq_mul_inv]

lemma l2norm_normalizeVec (v : List ℝ) (h : l2norm v ≠ 0) :
    l2norm (normalizeVec v) = 1 := by
  have key : ((normalizeVec v).map fun x => x ^ 2).sum = 1 := by
    rw [sumsq_normalizeVec, ← sq_l2norm]
    exact div_self (pow_ne_zero 2 h)
  rw [l2norm_eq (normalizeVec v), key, Real.sqrt_one]

/-- C10: every row of the normalized feature matrix (frames.py lines 141-143
and 234-236) has unit L2 norm, provided the raw row is nonzero; hence the
unscaled similarity of such a row against a unit-norm source feature is a
cosine similarity lying in `[-1, 1]`. -/
theorem C10_normalized_features_unit_norm_cosine (rows : List (List ℝ))
    (hnz : ∀ r ∈ rows, l2norm r ≠ 0) :
    ∀ v ∈ normalizeRows rows, l2norm v = 1 ∧
      ∀ source : List ℝ, l2norm source = 1 →
        -1 ≤ dot v source ∧ dot v source ≤ 1 := by
  intro v hv
  rw [normalizeRows] at hv
  obtain ⟨r, hr, rfl⟩ := List.mem_map.mp hv
  have h1 : l2norm (normalizeVec r) = 1 := l2norm_normalizeVec r (hnz r hr)
  refine ⟨h1, ?_⟩
  intro source hsrc
  have h2 := abs_dot_le (normalizeVec r) source
  rw [h1, hsrc, one_mul] at h2
  exact abs_le.mp h2

theorem C10_witness :
    (∀ r ∈ ([[3, 4]] : List (List ℝ)), l2norm r ≠ 0) ∧
    normalizeVec [3, 4] ∈ normalizeRows ([[3, 4]] : List (List ℝ)) ∧
    l2norm ([1, 0] : List ℝ) = 1 ∧
    (l2norm (normalizeVec [3, 4]) = 1 ∧
      -1 ≤ dot (normalizeVec [3, 4]) [1, 0] ∧ dot (normalizeVec [3, 4]) [1, 0] ≤ 1) := by
  have hnz : ∀ r ∈ ([[3, 4]] : List (List ℝ)), l2norm r ≠ 0 := by
    intro r hr
    rw [List.mem_singleton] at hr
    subst hr
    have hpos : (0 : ℝ) < ((([3, 4] : List ℝ).map fun x => x ^ 2).sum) := by norm_num
    exact ne_of_gt (Real.sqrt_pos.mpr hpos)
  have hmem : normalizeVec [3, 4] ∈ normalizeRows ([[3, 4]] : List (List ℝ)) := by
    simp [normalizeRows]
  have hsrc : l2norm ([1, 0] : List ℝ) = 1 := by
    have hsum : ((([1, 0] : List ℝ).map fun x => x ^ 2).sum) = 1 := by norm_num
    rw [l2norm_eq, hsum, Real.sqrt_one]
  obtain ⟨hu, hcos⟩ :=
    C10_normalized_features_unit_norm_cosine [[3, 4]] hnz (normalizeVec [3, 4]) hmem
  exact ⟨hnz, hmem, hsrc, hu, hcos [1, 0] hsrc⟩

/-! Facts about `MAP` (C3). -/

lemma listStd_eq (l : List ℝ) :
    listStd l
      = Real.sqrt ((l.map fun x => (x - mean l) ^ 2).sum / ((l.length : ℝ) - 1)) := rfl

lemma MAP_length (l : List ℝ) : (MAP l).length = l.length := by
  simp [MAP]

lemma sum_sq_dev_pos (l : List ℝ) {x y : ℝ} (hx : x ∈ l) (hy : y ∈ l) (hxy : x ≠ y) :
    0 < (l.map fun z => (z - mean l) ^ 2).sum := by
  have hone : x ≠ mean l ∨ y ≠ mean l := by
    by_contra hc
    push_neg at hc
    exact hxy (hc.1.trans hc.2.symm)
  have hnn : ∀ w ∈ l.map fun z => (z - mean l) ^ 2, 0 ≤ w := by
    intro w hw
    obtain ⟨a, _, rfl⟩ := List.mem_map.mp hw
    exact sq_nonneg _
  rcases hone with hne | hne
  · have hmem : (x - mean l) ^ 2 ∈ l.map fun z => (z - mean l) ^ 2 :=
      List.mem_map_of_mem _ hx
    have hpos : 0 < (x - mean l) ^ 2 := sq_pos_of_ne_zero (sub_ne_zero.mpr hne)
    exact lt_of_lt_of_le hpos (List.single_le_sum hnn _ hmem)
  · have hmem : (y - mean l) ^ 2 ∈ l.map fun z => (z - mean l) ^ 2 :=
      List.mem_map_of_mem _ hy
    have hpos : 0 < (y - mean l) ^ 2 := sq_pos_of_ne_zero (sub_ne_zero.mpr hne)
    exact lt_of_lt_of_le hpos (List.single_le_sum hnn _ hmem)

lemma listStd_pos (l : List ℝ) (h2 : 2 ≤ l.length) {x y : ℝ}
    (hx : x ∈ l) (hy : y ∈ l) (hxy : x ≠ y) : 0 < listStd l := by
  rw [listStd_eq]
  apply Real.sqrt_pos.mpr
  apply div_pos (sum_sq_dev_pos l hx hy hxy)
  have : (2 : ℝ) ≤ (l.length : ℝ) := by exact_mod_cast h2
  linarith

/-- C3: on a similarity tensor with at least 20 rows (so that the top-5%
count `int(len * 0.05)` is at least 1 and `torch.topk` is well defined),
every entry of `MAP` lies strictly between 0 and 100, and `MAP` is strictly
increasing entrywise in the similarity values. -/
theorem C3_MAP_bounded_and_strictly_increasing (l : List ℝ) (h20 : 20 ≤ l.length) :
    (∀ x ∈ MAP l, 0 < x ∧ x < 100) ∧
    (∀ i j : ℕ, i < l.length → j < l.length →
      l.getD i 0 < l.getD j 0 → (MAP l).getD i 0 < (MAP l).getD j 0) := by
  constructor
  · intro x hx
    simp only [MAP] at hx
    obtain ⟨z, _, rfl⟩ := List.mem_map.mp hx
    have hexp : 0 < Real.exp
        (-(z - topkMin l (l.length * 5 / 100)) / (listStd l / 12)) := Real.exp_pos _
    constructor
    · apply div_pos (by norm_num)
      linarith
    · rw [div_lt_iff₀ (by linarith)]
      nlinarith
  · intro i j hi hj hij
    rw [List.getD_eq_getElem _ _ hi, List.getD_eq_getElem _ _ hj] at hij
    have hxy : l[i] ≠ l[j] := ne_of_lt hij
    have hstd : 0 < listStd l :=
      listStd_pos l (by omega) (List.getElem_mem hi) (List.getElem_mem hj) hxy
    have hc : 0 < listStd l / 12 := by linarith
    have hi2 : i < (MAP l).length := by rw [MAP_length]; exact hi
    have hj2 : j < (MAP l).length := by rw [MAP_length]; exact hj
    rw [List.getD_eq_getElem _ _ hi2, List.getD_eq_getElem _ _ hj2]
    simp only [MAP, List.getElem_map]
    have harg : -(l[j] - topkMin l (l.length * 5 / 100)) / (listStd l / 12)
        < -(l[i] - topkMin l (l.length * 5 / 100)) / (listStd l / 12) := by
      rw [div_lt_div_iff_of_pos_right hc]
      linarith
    have hexp : Real.exp (-(l[j] - topkMin l (l.length * 5 / 100)) / (listStd l / 12))
        < Real.exp (-(l[i] - topkMin l (l.length * 5 / 100)) / (listStd l / 12)) :=
      Real.exp_lt_exp.mpr harg
    apply div_lt_div_of_pos_left (by norm_num)
    · have := Real.exp_pos
        (-(l[j] - topkMin l (l.length * 5 / 100)) / (listStd l / 12))
      linarith
    · linarith

theorem C3_witness :
    20 ≤ lC3.length ∧ (0 : ℕ) < lC3.length ∧ (1 : ℕ) < lC3.length ∧
    lC3.getD 0 0 < lC3.getD 1 0 ∧
    ((∀ x ∈ MAP lC3, 0 < x ∧ x < 100) ∧
      (MAP lC3).getD 0 0 < (MAP lC3).getD 1 0) := by
  have h20 : 20 ≤ lC3.length := by simp [lC3]
  have h0 : (0 : ℕ) < lC3.length := by simp [lC3]
  have h1 : (1 : ℕ) < lC3.length := by simp [lC3]
  have hij : lC3.getD 0 0 < lC3.getD 1 0 := by norm_num [lC3]
  obtain ⟨hb, hm⟩ := C3_MAP_bounded_and_strictly_increasing lC3 h20
  exact ⟨h20, h0, h1, hij, hb, hm 0 1 h0 h1 hij⟩

end AudioCLIP
